import Mathlib

/-!
A shallow embedding of the packetloss terminal dashboard (src/ping.rs and
src/term.rs): the packet-chunk statistics, the bounded history buffer, the
grid partitioner iterator and the selection overlay, together with theorems
checking the specification's claims against them.

Modelling conventions: f64 latency arithmetic is carried out over the
rationals; u16 arithmetic is carried out on Nat, with an explicit wrap
(mod 65536) at the two operations that can overflow — the row-capacity
product and the increment that builds the width divisor — and every
operation that can panic in Rust (an out-of-bounds index, a division by
zero, an arithmetic underflow) returns an Option, with none standing for
the panic.
-/

namespace Packetloss

/-- One slot of a probe batch (the fields of oping's PingItem that
src/ping.rs reads: the drop flag and the round-trip time). -/
structure PingItem where
  dropped : Nat
  latency_ms : ℚ
deriving DecidableEq, Repr

/-- src/ping.rs PacketChunk (the chrono timestamp is not read by any
computation the claims mention and is omitted). -/
structure PacketChunk where
  packets : List (Option PingItem)
  timeout : ℚ
  tint : Nat × Nat × Nat
  tint_weight : ℚ
deriving DecidableEq, Repr

/-- src/ping.rs PacketChunk::sent. -/
def PacketChunk.sent (c : PacketChunk) : Nat := c.packets.length

/-- src/ping.rs PacketChunk::received: slots that are present and not dropped. -/
def PacketChunk.received (c : PacketChunk) : Nat :=
  (c.packets.filter (fun x => match x with
    | some p => p.dropped == 0
    | none => false)).length

/-- src/ping.rs PacketChunk::loss. -/
def PacketChunk.loss (c : PacketChunk) : ℚ :=
  if c.sent = 0 then 0 else 1 - ((c.received : ℚ) / (c.sent : ℚ))

/-- src/ping.rs PacketChunk::latency: dropped or absent slots contribute the timeout. -/
def PacketChunk.latency (c : PacketChunk) : ℚ :=
  c.packets.foldl (fun acc p => acc + match p with
    | some p => if p.dropped ≠ 0 then c.timeout else p.latency_ms
    | none => c.timeout) 0

/-- src/ping.rs PacketChunk::tint_weight (the setter): clamps to the unit interval. -/
def PacketChunk.setTintWeight (c : PacketChunk) (w : ℚ) : PacketChunk :=
  if 1 < w then { c with tint_weight := 1 }
  else if w < 0 then { c with tint_weight := 0 }
  else { c with tint_weight := w }

/-- The loss formula exactly as the specification words it: the guard is on
received rather than on sent.  Declared only to be compared with
PacketChunk.loss, which follows the source. -/
def lossSpec (c : PacketChunk) : ℚ :=
  if 0 < c.received then 1 - ((c.received : ℚ) / (c.sent : ℚ)) else 0

/-- src/term.rs LogList (the tui Block field is rendering-only and carries no
data any claim mentions); min_latency starts at f64 INFINITY, modelled as none. -/
structure LogList where
  items : List PacketChunk
  min_latency : Option ℚ
  max : Nat
deriving DecidableEq, Repr

/-- src/term.rs LogList::new. -/
def LogList.new (max : Nat) : LogList := ⟨[], none, max⟩

/-- src/term.rs LogList::insert: update min_latency, push to the front, then
pop the back entry whenever the length has reached max. -/
def LogList.insert (l : LogList) (item : PacketChunk) : LogList :=
  let ml := match l.min_latency with
    | none => some item.latency
    | some m => if item.latency < m then some item.latency else some m
  let pushed := item :: l.items
  let kept := if l.max ≤ pushed.length then pushed.dropLast else pushed
  { l with items := kept, min_latency := ml }

/-- src/term.rs LogList::len. -/
def LogList.len (l : LogList) : Nat := l.items.length

/-- Folding LogList::insert over a list of chunks, oldest first. -/
def LogList.insertAll (l : LogList) (es : List PacketChunk) : LogList :=
  es.foldl LogList.insert l

/-- tui::layout::Rect, restricted to the four fields the code uses. -/
structure Rect where
  x : Nat
  y : Nat
  width : Nat
  height : Nat
deriving DecidableEq, Repr

/-- src/term.rs fn ceil.  When a is nonzero and b is zero the source divides
by zero, which is a Rust panic in every build profile; that case is none. -/
def ceil (a b : Nat) : Option Nat :=
  if a = 0 then some 0
  else if b = 0 then none
  else some (1 + (a - 1) / b)

/-- Total variant of fn ceil, usable because inside next the divisor is
provably nonzero (theorem next_divisors_pos below). -/
def ceilT (a b : Nat) : Nat :=
  if a = 0 then 0 else 1 + (a - 1) / b

/-- src/term.rs LogListPartitioner: the iterator state. -/
structure LogListPartitioner where
  x : Nat
  y : Nat
  offset_x : Nat
  offset_y : Nat
  width : Nat
  max_width : Nat
  height : Nat
  length : Nat
deriving DecidableEq, Repr

namespace LogListPartitioner

/-- after = min(length, (height - 1) * max_width): the u16 product wraps
modulo 65536 when it overflows. -/
def after (s : LogListPartitioner) : Nat :=
  min s.length ((s.height - 1) * s.max_width % 65536)

/-- The divisor for the cell width: (length - after) + 1 computed in u16, so
the increment wraps modulo 65536 (at length = 65535 with after = 0 it wraps
to 0, and the subsequent division in fn ceil panics for a nonzero width);
decremented once when only one row of height remains. -/
def wdiv (s : LogListPartitioner) : Nat :=
  let w0 := ((s.length - after s) + 1) % 65536
  if s.height = 1 ∧ 0 < w0 then w0 - 1 else w0

/-- The divisor for the cell height: min(height, length). -/
def hdiv (s : LogListPartitioner) : Nat := min s.height s.length

/-- The width of the rectangle emitted by one call of next. -/
def cellW (s : LogListPartitioner) : Nat := ceilT s.width (wdiv s)

/-- The height of the rectangle emitted by one call of next. -/
def cellH (s : LogListPartitioner) : Nat := ceilT s.height (hdiv s)

/-- The rectangle one call of next emits (cursor plus the area's origin). -/
def emitRect (s : LogListPartitioner) : Rect :=
  ⟨s.x + s.offset_x, s.y + s.offset_y, cellW s, cellH s⟩

/-- The state after one call of next: consume the cell from the remaining
width and height, reset the row when its width is used up (the consumed
condition is width - cellW = 0 together with more than one remaining row,
that is 1 < height - (cellH - 1)), advance the cursor, decrement the
remaining count. -/
def step (s : LogListPartitioner) : LogListPartitioner :=
  { s with
    x := if s.x + cellW s = s.max_width then 0 else s.x + cellW s,
    y := (if s.width - cellW s = 0 ∧ 1 < s.height - (cellH s - 1) then s.y + 1 else s.y)
          + (cellH s - 1),
    width := if s.width - cellW s = 0 ∧ 1 < s.height - (cellH s - 1)
             then s.max_width else s.width - cellW s,
    height := if s.width - cellW s = 0 ∧ 1 < s.height - (cellH s - 1)
              then (s.height - (cellH s - 1)) - 1 else s.height - (cellH s - 1),
    length := s.length - 1 }

/-- src/term.rs Iterator::next for LogListPartitioner.  The inner Option is
the iterator protocol (none = exhausted); the outer Option models the panic
inside fn ceil — reachable because the u16 computation of wdiv can wrap to
0 — with none standing for the call dying instead of returning.  When both
ceil calls succeed their values are exactly cellW and cellH (theorem
ceil_some below), which emitRect and step use. -/
def next (s : LogListPartitioner) :
    Option (Option (Rect × LogListPartitioner)) :=
  if s.height = 0 ∨ s.length = 0 then some none
  else
    match ceil s.width (wdiv s), ceil s.height (hdiv s) with
    | some _, some _ => some (some (emitRect s, step s))
    | _, _ => none

/-- Total variant of next: the same guard and values, with the panic case
erased.  It agrees with next wherever next does not panic (theorem
runP_eq_runFuel below uses this state by state). -/
def nextT (s : LogListPartitioner) : Option (Rect × LogListPartitioner) :=
  if s.height = 0 ∨ s.length = 0 then none
  else some (emitRect s, step s)

/-- Iterating the total variant nextT to exhaustion, with explicit fuel. -/
def runFuel : Nat → LogListPartitioner → List Rect
  | 0, _ => []
  | fuel + 1, s =>
    match nextT s with
    | none => []
    | some (r, s1) => r :: runFuel fuel s1

/-- Iterating next to exhaustion, with explicit fuel; none as soon as any
call panics. -/
def runP : Nat → LogListPartitioner → Option (List Rect)
  | 0, _ => some []
  | fuel + 1, s =>
    match next s with
    | none => none
    | some none => some []
    | some (some (r, s1)) =>
      match runP fuel s1 with
      | none => none
      | some rs => some (r :: rs)

/-- Every rectangle the partitioner yields, or none when it panics: length,
which every yielding step strictly decreases, is enough fuel (a panic needs
a yielding-position call, where fuel is still positive). -/
def run (s : LogListPartitioner) : Option (List Rect) := runP s.length s

end LogListPartitioner

/-- The partitioner state src/term.rs LogList::partition builds for an area
and an item count. -/
def initPartitioner (size : Rect) (len : Nat) : LogListPartitioner :=
  ⟨0, 0, size.x, size.y, size.width, size.width, size.height, len⟩

/-- src/term.rs LogList::partition. -/
def LogList.partition (l : LogList) (size : Rect) : LogListPartitioner :=
  initPartitioner size l.len

/-- A character cell covered by a rectangle. -/
def Rect.covers (r : Rect) (cx cy : Nat) : Prop :=
  r.x ≤ cx ∧ cx < r.x + r.width ∧ r.y ≤ cy ∧ cy < r.y + r.height

/-- Two rectangles share no cell. -/
def Rect.Disjoint (r1 r2 : Rect) : Prop :=
  ∀ cx cy, ¬(r1.covers cx cy ∧ r2.covers cx cy)

/-- Containment of one rectangle inside another, on both axes. -/
def Rect.within (r area : Rect) : Prop :=
  area.x ≤ r.x ∧ r.x + r.width ≤ area.x + area.width ∧
  area.y ≤ r.y ∧ r.y + r.height ≤ area.y + area.height

namespace LogListPartitioner

/-- Cursor and remaining-width discipline: either the cursor and the
remaining width fill the full row, or both are zero (the latter only once a
one-row tail of zero width has been reached). -/
def XW (s : LogListPartitioner) : Prop :=
  s.x + s.width = s.max_width ∨ (s.width = 0 ∧ s.x = 0)

/-- The region where every rectangle yielded from state s can lie: at or
below the cursor row, and right of the cursor on the cursor row itself
(absolute coordinates). -/
def inFuture (s : LogListPartitioner) (cx cy : Nat) : Prop :=
  s.offset_y + s.y ≤ cy ∧ (s.offset_y + s.y < cy ∨ s.offset_x + s.x ≤ cx)

end LogListPartitioner

/-! The selection overlay (src/term.rs SelectableLogList, claims C6 to C8). -/

/-- The write items[i].tint_weight(w): an out-of-bounds index is a Rust
panic, modelled none. -/
def setTint (items : List PacketChunk) (i : Nat) (w : ℚ) :
    Option (List PacketChunk) :=
  match items[i]? with
  | some c => some (items.set i (c.setTintWeight w))
  | none => none

/-- The tint weight stored at a position, 0 past the end of the buffer. -/
def tintAt (items : List PacketChunk) (j : Nat) : ℚ :=
  ((items[j]?).map PacketChunk.tint_weight).getD 0

/-- src/term.rs SelectableLogList (the Block field is rendering-only and
omitted, as in LogList). -/
structure SelectableLogList where
  selection : Option Nat
  list : LogList
  min_height : Nat
deriving DecidableEq, Repr

/-- src/term.rs SelectableLogList::new. -/
def SelectableLogList.new (max : Nat) : SelectableLogList :=
  ⟨none, LogList.new max, 5⟩

namespace SelectableLogList

/-- src/term.rs SelectableLogList::len. -/
def len (s : SelectableLogList) : Nat := s.list.len

/-- Replace the buffer's item list, keeping everything else. -/
def withItems (s : SelectableLogList) (items : List PacketChunk) :
    SelectableLogList :=
  { s with list := { s.list with items := items } }

/-- The tint clear select performs on the current selection before moving it
(indexing panics if the stored index is stale). -/
def clearOldTint (s : SelectableLogList) : Option (List PacketChunk) :=
  match s.selection with
  | some i => setTint s.list.items i 0
  | none => some s.list.items

/-- src/term.rs SelectableLogList::select: clear the tint at the current
selection, store the new index, set its tint weight to 0.5 (indexing panics
when the index is out of bounds). -/
def select (s : SelectableLogList) (j : Nat) : Option SelectableLogList :=
  (clearOldTint s).bind fun items0 =>
    (setTint items0 j (1 / 2)).map fun items1 =>
      { s.withItems items1 with selection := some j }

/-- src/term.rs SelectableLogList::insert: push into the buffer, then the
sticky-top adjustment: a positive selection moves to i + 1 through select,
while a selection at 0 clears the tint on items[1] (which panics when the
buffer retains fewer than two entries). -/
def insert (s : SelectableLogList) (item : PacketChunk) :
    Option SelectableLogList :=
  let s1 : SelectableLogList := { s with list := s.list.insert item }
  match s.selection with
  | none => some s1
  | some i =>
    if 0 < i then
      s1.select (i + 1)
    else
      (setTint s1.list.items 1 0).map fun items => s1.withItems items

/-- src/term.rs SelectableLogList::clear (indexing panics if the stored
index is stale). -/
def clear (s : SelectableLogList) : Option SelectableLogList :=
  match s.selection with
  | none => some { s with selection := none }
  | some i =>
    (setTint s.list.items i 0).map fun items =>
      { s.withItems items with selection := none }

/-- src/term.rs SelectableLogList::has_selection. -/
def has_selection (s : SelectableLogList) : Bool :=
  match s.selection with
  | some i => decide (i < s.len)
  | none => false

/-- src/term.rs SelectableLogList::select_next.  With a selection on an
empty buffer, len() - 1 underflows: a checked build panics, and a release
build wraps the bound so select then indexes out of bounds — none either
way. -/
def select_next (s : SelectableLogList) : Option SelectableLogList :=
  match s.selection with
  | some i =>
    if s.len = 0 then none
    else if i < s.len - 1 then s.select (i + 1) else some s
  | none => s.select 0

/-- src/term.rs SelectableLogList::select_prev. -/
def select_prev (s : SelectableLogList) : Option SelectableLogList :=
  match s.selection with
  | some i => if 0 < i then s.select (i - 1) else some s
  | none => s.select 0

/-- src/term.rs SelectableLogList::select_last: len() - 1 underflows on an
empty buffer exactly as in select_next. -/
def select_last (s : SelectableLogList) : Option SelectableLogList :=
  if s.len = 0 then none else s.select (s.len - 1)

/-- src/term.rs SelectableLogList::select_first. -/
def select_first (s : SelectableLogList) : Option SelectableLogList :=
  s.select 0

/-- The net effect of SelectableLogList::draw (Widget::draw) on the stored
tints: when a valid selection is shown in the inspect frame, the selected
entry's tint weight is written to 0 and then back to 0.5, so it ends at 0.5;
every other path (no valid selection, a zero-sized area, an inspect
rectangle that does not fit — geometry conditions the overlayShown flag
abstracts) leaves every tint unchanged.  The characters drawn to the
terminal buffer are outside the model. -/
def drawTints (s : SelectableLogList) (overlayShown : Bool) :
    SelectableLogList :=
  match s.selection with
  | some i =>
    if has_selection s && overlayShown then
      match setTint s.list.items i (1 / 2) with
      | some items => s.withItems items
      | none => s
    else s
  | none => s

end SelectableLogList

/-- Overlay states reachable by the operations the main loop performs.
Inserted chunks carry tint weight 0, as every chunk Ping::ping builds does;
an operation that would panic (none) produces no new state. -/
inductive Reachable : SelectableLogList → Prop
  | new (max : Nat) : Reachable (SelectableLogList.new max)
  | insert {s s1 : SelectableLogList} {item : PacketChunk} : Reachable s →
      item.tint_weight = 0 → s.insert item = some s1 → Reachable s1
  | select_next {s s1 : SelectableLogList} : Reachable s →
      s.select_next = some s1 → Reachable s1
  | select_prev {s s1 : SelectableLogList} : Reachable s →
      s.select_prev = some s1 → Reachable s1
  | select_first {s s1 : SelectableLogList} : Reachable s →
      s.select_first = some s1 → Reachable s1
  | select_last {s s1 : SelectableLogList} : Reachable s →
      s.select_last = some s1 → Reachable s1
  | clear {s s1 : SelectableLogList} : Reachable s →
      s.clear = some s1 → Reachable s1
  | draw {s : SelectableLogList} (overlayShown : Bool) : Reachable s →
      Reachable (s.drawTints overlayShown)

/-- Selection and tint discipline: any stored index is in range, and every
position other than the stored index carries tint weight 0. -/
def TintInv (s : SelectableLogList) : Prop :=
  (∀ i, s.selection = some i → i < s.len) ∧
  (∀ j, s.selection ≠ some j → tintAt s.list.items j = 0)

/-! Concrete chunks and overlay states used by the claim theorems below. -/

/-- A chunk with no probe slots at all (a zero-attempt entry). -/
def emptyChunk : PacketChunk := ⟨[], 100, (0, 0, 0), 0⟩

/-- A chunk holding exactly one dropped probe: sent = 1, received = 0. -/
def droppedChunk : PacketChunk := ⟨[some ⟨1, 5⟩], 100, (0, 0, 0), 0⟩

/-- A chunk holding a single successful probe with the given round-trip
time, so its latency() is exactly that value. -/
def mkChunk (lat : ℚ) : PacketChunk := ⟨[some ⟨0, lat⟩], 100, (0, 0, 0), 0⟩

/-- A max-4 overlay retaining three entries with the selection on the tail
entry (index 2): one more insert evicts the selected tail. -/
def c7State : SelectableLogList :=
  ⟨some 2, ⟨[mkChunk 3, mkChunk 2, mkChunk 1], some 1, 4⟩, 5⟩

/-- The overlay state after inserting the zero-attempt chunk into a fresh
max-3 overlay. -/
def c8Mid : SelectableLogList := ⟨none, ⟨[emptyChunk], some 0, 3⟩, 5⟩

/-- The overlay state after then selecting the only entry (tint weight
0.5). -/
def c8Sel : SelectableLogList :=
  ⟨some 0, ⟨[⟨[], 100, (0, 0, 0), 1 / 2⟩], some 0, 3⟩, 5⟩

/-! Arithmetic facts about the ceiling helper. -/

theorem ceilT_le {a b : Nat} (hb : 1 ≤ b) : ceilT a b ≤ a := by
  by_cases ha : a = 0
  · simp [ceilT, ha]
  · have h1 : (a - 1) / b ≤ a - 1 := Nat.div_le_self _ _
    simp only [ceilT, if_neg ha]
    omega

theorem ceilT_pos {a : Nat} (b : Nat) (ha : 1 ≤ a) : 1 ≤ ceilT a b := by
  rw [ceilT, if_neg (by omega : ¬a = 0)]
  exact Nat.le_add_right 1 _

theorem ceilT_one (a : Nat) : ceilT a 1 = a := by
  by_cases ha : a = 0
  · simp [ceilT, ha]
  · simp only [ceilT, if_neg ha, Nat.div_one]
    omega

theorem ceilT_zero_left (b : Nat) : ceilT 0 b = 0 := by simp [ceilT]

theorem ceil_eq_ceilT {a b : Nat} (hb : b ≠ 0) : ceil a b = some (ceilT a b) := by
  by_cases ha : a = 0
  · simp [ceil, ceilT, ha]
  · simp [ceil, ceilT, ha, hb]

theorem ceil_some {a b c : Nat} (h : ceil a b = some c) : c = ceilT a b := by
  by_cases ha : a = 0
  · simp only [ceil, if_pos ha] at h
    rw [ceilT, if_pos ha]
    exact (Option.some_inj.mp h).symm
  · by_cases hb : b = 0
    · simp [ceil, ha, hb] at h
    · simp only [ceil, if_neg ha, if_neg hb] at h
      rw [ceilT, if_neg ha]
      exact (Option.some_inj.mp h).symm

namespace LogListPartitioner

/-! Facts about the quantities one call of next computes. -/

theorem after_le (s : LogListPartitioner) : after s ≤ s.length := Nat.min_le_left _ _

theorem wdiv_pos {s : LogListPartitioner} (hl : 1 ≤ s.length)
    (hub : s.length ≤ 65534) : 1 ≤ wdiv s := by
  have hafter := after_le s
  have hmod : ((s.length - after s) + 1) % 65536 = (s.length - after s) + 1 :=
    Nat.mod_eq_of_lt (by omega)
  simp only [wdiv, hmod]
  by_cases hh : s.height = 1
  · have ha0 : after s = 0 := by simp [after, hh]
    rw [if_pos ⟨hh, by omega⟩]
    omega
  · rw [if_neg (fun hc => hh hc.1)]
    omega

theorem hdiv_pos {s : LogListPartitioner} (hh : 1 ≤ s.height) (hl : 1 ≤ s.length) :
    1 ≤ hdiv s := by
  simp only [hdiv]
  omega

theorem cellW_le {s : LogListPartitioner} (hl : 1 ≤ s.length)
    (hub : s.length ≤ 65534) : cellW s ≤ s.width :=
  ceilT_le (wdiv_pos hl hub)

theorem cellW_of_width_zero {s : LogListPartitioner} (hw : s.width = 0) : cellW s = 0 := by
  simp [cellW, hw, ceilT_zero_left]

theorem cellH_le {s : LogListPartitioner} (hh : 1 ≤ s.height) (hl : 1 ≤ s.length) :
    cellH s ≤ s.height :=
  ceilT_le (hdiv_pos hh hl)

theorem cellH_pos {s : LogListPartitioner} (hh : 1 ≤ s.height) : 1 ≤ cellH s :=
  ceilT_pos _ hh

/-! Projections of step. -/

theorem step_x (s : LogListPartitioner) :
    (step s).x = if s.x + cellW s = s.max_width then 0 else s.x + cellW s := rfl

theorem step_y (s : LogListPartitioner) :
    (step s).y = (if s.width - cellW s = 0 ∧ 1 < s.height - (cellH s - 1)
                  then s.y + 1 else s.y) + (cellH s - 1) := rfl

theorem step_width (s : LogListPartitioner) :
    (step s).width = if s.width - cellW s = 0 ∧ 1 < s.height - (cellH s - 1)
                     then s.max_width else s.width - cellW s := rfl

theorem step_height (s : LogListPartitioner) :
    (step s).height = if s.width - cellW s = 0 ∧ 1 < s.height - (cellH s - 1)
                      then (s.height - (cellH s - 1)) - 1 else s.height - (cellH s - 1) := rfl

theorem step_length (s : LogListPartitioner) : (step s).length = s.length - 1 := rfl

theorem step_max_width (s : LogListPartitioner) : (step s).max_width = s.max_width := rfl

theorem step_offset_x (s : LogListPartitioner) : (step s).offset_x = s.offset_x := rfl

theorem step_offset_y (s : LogListPartitioner) : (step s).offset_y = s.offset_y := rfl

theorem step_height_pos {s : LogListPartitioner} (hh : 1 ≤ s.height) (hl : 1 ≤ s.length) :
    1 ≤ (step s).height := by
  have h1 := cellH_le hh hl
  have h2 := cellH_pos (s := s) hh
  rw [step_height]
  split_ifs with hc <;> omega

theorem step_y_add_height {s : LogListPartitioner} (hh : 1 ≤ s.height) (hl : 1 ≤ s.length) :
    (step s).y + (step s).height = s.y + s.height := by
  have h1 := cellH_le hh hl
  have h2 := cellH_pos (s := s) hh
  rw [step_y, step_height]
  split_ifs with hc <;> omega

theorem XW_step {s : LogListPartitioner} (hh : 1 ≤ s.height) (hl : 1 ≤ s.length)
    (hub : s.length ≤ 65534) (hxw : XW s) : XW (step s) := by
  have hcw := cellW_le (s := s) hl hub
  simp only [XW, step_x, step_width, step_max_width] at *
  rcases hxw with hxw | ⟨hw0, hx0⟩
  · split_ifs <;> omega
  · have hc0 : cellW s = 0 := cellW_of_width_zero hw0
    split_ifs <;> omega

theorem covers_emit_inFuture {s : LogListPartitioner} {cx cy : Nat}
    (h : (emitRect s).covers cx cy) : inFuture s cx cy := by
  simp only [Rect.covers, emitRect, inFuture] at *
  omega

theorem inFuture_step {s : LogListPartitioner} {cx cy : Nat}
    (hh : 1 ≤ s.height) (hl : 1 ≤ s.length) (hub : s.length ≤ 65534) (hxw : XW s)
    (hc : ¬(s.width - cellW s = 0 ∧ s.height - (cellH s - 1) = 1))
    (h : inFuture (step s) cx cy) : inFuture s cx cy := by
  have hcw := cellW_le (s := s) hl hub
  have hch := cellH_le hh hl
  have hchp := cellH_pos (s := s) hh
  simp only [inFuture, step_y, step_x, step_offset_x, step_offset_y] at *
  rcases hxw with hxw | ⟨hw0, hx0⟩
  · split_ifs at h <;> omega
  · have hc0 : cellW s = 0 := cellW_of_width_zero hw0
    split_ifs at h <;> omega

theorem emit_not_future_step {s : LogListPartitioner} {cx cy : Nat}
    (hh : 1 ≤ s.height) (hl : 1 ≤ s.length) (hub : s.length ≤ 65534) (hxw : XW s)
    (hc : ¬(s.width - cellW s = 0 ∧ s.height - (cellH s - 1) = 1))
    (h1 : (emitRect s).covers cx cy) (h2 : inFuture (step s) cx cy) : False := by
  have hcw := cellW_le (s := s) hl hub
  have hch := cellH_le hh hl
  have hchp := cellH_pos (s := s) hh
  simp only [Rect.covers, emitRect, inFuture, step_y, step_x,
    step_offset_x, step_offset_y] at *
  rcases hxw with hxw | ⟨hw0, hx0⟩
  · split_ifs at h2 <;> omega
  · have hc0 : cellW s = 0 := cellW_of_width_zero hw0
    split_ifs at h2 <;> omega

theorem runFuel_succ (fuel : Nat) (s : LogListPartitioner) :
    runFuel (fuel + 1) s =
      if s.height = 0 ∨ s.length = 0 then []
      else emitRect s :: runFuel fuel (step s) := by
  by_cases h : s.height = 0 ∨ s.length = 0
  · simp [runFuel, nextT, h]
  · simp [runFuel, nextT, h]

theorem runFuel_width_zero {fuel : Nat} : ∀ {s : LogListPartitioner},
    s.width = 0 → s.height = 1 → ∀ r ∈ runFuel fuel s, r.width = 0 := by
  induction fuel with
  | zero =>
    intro s _ _ r hr
    simp [runFuel] at hr
  | succ n ih =>
    intro s hw hh r hr
    rw [runFuel_succ] at hr
    split_ifs at hr with hc
    · simp at hr
    · push_neg at hc
      obtain ⟨hh0, hl0⟩ := hc
      rcases List.mem_cons.mp hr with rfl | hr2
      · simp [emitRect, cellW_of_width_zero hw]
      · have hhd : hdiv s = 1 := by simp only [hdiv]; omega
        have hch : cellH s = 1 := by rw [cellH, hhd, hh]; rfl
        have hc0 : cellW s = 0 := cellW_of_width_zero hw
        have hsw : (step s).width = 0 := by
          rw [step_width]; split_ifs <;> omega
        have hsh : (step s).height = 1 := by
          rw [step_height]; split_ifs <;> omega
        exact ih hsw hsh r hr2

theorem runFuel_covers_future {fuel : Nat} : ∀ {s : LogListPartitioner},
    s.length ≤ 65534 → XW s →
    ∀ r ∈ runFuel fuel s, ∀ cx cy, r.covers cx cy → inFuture s cx cy := by
  induction fuel with
  | zero =>
    intro s _ _ r hr
    simp [runFuel] at hr
  | succ n ih =>
    intro s hub hxw r hr cx cy hcov
    rw [runFuel_succ] at hr
    split_ifs at hr with hc
    · simp at hr
    · push_neg at hc
      obtain ⟨hh0, hl0⟩ := hc
      have hh1 : 1 ≤ s.height := by omega
      have hl1 : 1 ≤ s.length := by omega
      have hub1 : (step s).length ≤ 65534 := by rw [step_length]; omega
      rcases List.mem_cons.mp hr with rfl | hr2
      · exact covers_emit_inFuture hcov
      · by_cases h3 : s.width - cellW s = 0 ∧ s.height - (cellH s - 1) = 1
        · have hch := cellH_le hh1 hl1
          have hsw : (step s).width = 0 := by
            rw [step_width]; split_ifs <;> omega
          have hsh : (step s).height = 1 := by
            rw [step_height]; split_ifs <;> omega
          have hr0 := runFuel_width_zero hsw hsh r hr2
          simp only [Rect.covers, hr0] at hcov
          omega
        · exact inFuture_step hh1 hl1 hub hxw h3
            (ih hub1 (XW_step hh1 hl1 hub hxw) r hr2 cx cy hcov)

theorem runFuel_pairwise {fuel : Nat} : ∀ {s : LogListPartitioner},
    s.length ≤ 65534 → XW s → (runFuel fuel s).Pairwise Rect.Disjoint := by
  induction fuel with
  | zero =>
    intro s _ _
    simp [runFuel]
  | succ n ih =>
    intro s hub hxw
    rw [runFuel_succ]
    split_ifs with hc
    · simp
    · push_neg at hc
      obtain ⟨hh0, hl0⟩ := hc
      have hh1 : 1 ≤ s.height := by omega
      have hl1 : 1 ≤ s.length := by omega
      have hub1 : (step s).length ≤ 65534 := by rw [step_length]; omega
      refine List.pairwise_cons.mpr ⟨?_, ih hub1 (XW_step hh1 hl1 hub hxw)⟩
      intro r hr cx cy hboth
      obtain ⟨hcov1, hcov2⟩ := hboth
      by_cases h3 : s.width - cellW s = 0 ∧ s.height - (cellH s - 1) = 1
      · have hch := cellH_le hh1 hl1
        have hsw : (step s).width = 0 := by
          rw [step_width]; split_ifs <;> omega
        have hsh : (step s).height = 1 := by
          rw [step_height]; split_ifs <;> omega
        have hr0 := runFuel_width_zero hsw hsh r hr
        simp only [Rect.covers, hr0] at hcov2
        omega
      · exact emit_not_future_step hh1 hl1 hub hxw h3 hcov1
          (runFuel_covers_future hub1 (XW_step hh1 hl1 hub hxw) r hr cx cy hcov2)

theorem runFuel_bounds {fuel : Nat} : ∀ {s : LogListPartitioner},
    s.length ≤ 65534 → XW s →
    ∀ r ∈ runFuel fuel s,
      s.offset_x ≤ r.x ∧ r.x + r.width ≤ s.offset_x + s.max_width ∧
      s.offset_y ≤ r.y ∧ r.y + r.height ≤ s.offset_y + (s.y + s.height) := by
  induction fuel with
  | zero =>
    intro s _ _ r hr
    simp [runFuel] at hr
  | succ n ih =>
    intro s hub hxw r hr
    rw [runFuel_succ] at hr
    split_ifs at hr with hc
    · simp at hr
    · push_neg at hc
      obtain ⟨hh0, hl0⟩ := hc
      have hh1 : 1 ≤ s.height := by omega
      have hl1 : 1 ≤ s.length := by omega
      have hub1 : (step s).length ≤ 65534 := by rw [step_length]; omega
      have hcw := cellW_le (s := s) hl1 hub
      have hch := cellH_le hh1 hl1
      rcases List.mem_cons.mp hr with rfl | hr2
      · simp only [emitRect]
        rcases hxw with hxw | ⟨hw0, hx0⟩
        · omega
        · have hc0 : cellW s = 0 := cellW_of_width_zero hw0
          omega
      · have hsum := step_y_add_height hh1 hl1
        have hrec := ih hub1 (XW_step hh1 hl1 hub hxw) r hr2
        rw [step_offset_x, step_offset_y, step_max_width] at hrec
        omega

theorem runFuel_height_zero (fuel : Nat) {s : LogListPartitioner}
    (hh : s.height = 0) : runFuel fuel s = [] := by
  cases fuel with
  | zero => rfl
  | succ n => rw [runFuel_succ, if_pos (Or.inl hh)]

theorem runFuel_length {fuel : Nat} : ∀ {s : LogListPartitioner},
    s.length ≤ fuel → 1 ≤ s.height → (runFuel fuel s).length = s.length := by
  induction fuel with
  | zero =>
    intro s h hh
    simp only [runFuel, List.length_nil]
    omega
  | succ n ih =>
    intro s h hh
    rw [runFuel_succ]
    split_ifs with hc
    · simp only [List.length_nil]
      omega
    · push_neg at hc
      obtain ⟨hh0, hl0⟩ := hc
      have hl1 : 1 ≤ s.length := by omega
      simp only [List.length_cons]
      rw [ih (by rw [step_length]; omega) (step_height_pos hh hl1)]
      rw [step_length]
      omega

theorem runFuel_self_length (s : LogListPartitioner) :
    (runFuel s.length s).length = if s.height = 0 then 0 else s.length := by
  split_ifs with hh
  · rw [runFuel_height_zero _ hh, List.length_nil]
  · exact runFuel_length (Nat.le_refl _) (by omega)

theorem next_guard {s : LogListPartitioner} (h : s.height = 0 ∨ s.length = 0) :
    next s = some none := by
  rw [next, if_pos h]

theorem next_emit {s : LogListPartitioner} (hh : s.height ≠ 0)
    (hl : s.length ≠ 0) (hub : s.length ≤ 65534) :
    next s = some (some (emitRect s, step s)) := by
  have hw : 1 ≤ wdiv s := wdiv_pos (by omega) hub
  have hd : 1 ≤ hdiv s := hdiv_pos (by omega) (by omega)
  rw [next, if_neg (by omega : ¬(s.height = 0 ∨ s.length = 0)),
    ceil_eq_ceilT (by omega), ceil_eq_ceilT (by omega)]

theorem next_none_or_emit {s : LogListPartitioner}
    (h : ¬(s.height = 0 ∨ s.length = 0)) :
    next s = none ∨ next s = some (some (emitRect s, step s)) := by
  rw [next, if_neg h]
  cases h1 : ceil s.width (wdiv s) with
  | none =>
    cases h2 : ceil s.height (hdiv s) with
    | none => left; rfl
    | some ch => left; rfl
  | some cw =>
    cases h2 : ceil s.height (hdiv s) with
    | none => left; rfl
    | some ch => right; rfl

theorem runP_succ (fuel : Nat) (s : LogListPartitioner) :
    runP (fuel + 1) s =
      match next s with
      | none => none
      | some none => some []
      | some (some (r, s1)) =>
        match runP fuel s1 with
        | none => none
        | some rs => some (r :: rs) := rfl

theorem runP_succ_emit {fuel : Nat} {s : LogListPartitioner}
    {r : Rect} {s1 : LogListPartitioner} (h : next s = some (some (r, s1))) :
    runP (fuel + 1) s =
      match runP fuel s1 with
      | none => none
      | some rs => some (r :: rs) := by
  rw [runP_succ, h]

theorem runP_succ_exhausted {fuel : Nat} {s : LogListPartitioner}
    (h : next s = some none) : runP (fuel + 1) s = some [] := by
  rw [runP_succ, h]

/-- Where no panic can arise (at most 65534 items remain), the run completes
and yields exactly what the total model computes. -/
theorem runP_eq_runFuel {fuel : Nat} : ∀ {s : LogListPartitioner},
    s.length ≤ 65534 → runP fuel s = some (runFuel fuel s) := by
  induction fuel with
  | zero =>
    intro s _
    rfl
  | succ n ih =>
    intro s hub
    rw [runP_succ, runFuel_succ]
    by_cases hc : s.height = 0 ∨ s.length = 0
    · rw [next_guard hc, if_pos hc]
    · push_neg at hc
      obtain ⟨hh0, hl0⟩ := hc
      have hih := ih (s := step s) (by rw [step_length]; omega)
      simp only [next_emit hh0 hl0 hub,
        if_neg (by omega : ¬(s.height = 0 ∨ s.length = 0)), hih]

/-- The u16 wrap in action: a one-cell area holding the u16-maximal 65535
items wraps wdiv to 0 on the first call and fn ceil divides by zero. -/
theorem next_wrap_panics :
    next (initPartitioner ⟨0, 0, 1, 1⟩ 65535) = none := by decide

end LogListPartitioner

theorem initPartitioner_XW (size : Rect) (n : Nat) :
    LogListPartitioner.XW (initPartitioner size n) := by
  left
  show 0 + size.width = size.width
  omega

/-- Claim C1 (amended): iterated to exhaustion on an area of width by height
with an item count n of at most 65534, the partitioner completes without
panicking and yields exactly n rectangles when the height is nonzero and
none otherwise — not min(n, placeable cells): once the cells run out it
keeps yielding zero-width rectangles.  The yielded rectangles are pairwise
non-overlapping (disjoint as sets of character cells), and every yielded
rectangle lies within the original area bounds.  (At the u16-maximal count
65535 the wrapped width divisor can instead make the first call divide by
zero, theorem next_wrap_panics.) -/
theorem C1_partitioner_count_disjoint_bounds (width height n ox oy : Nat)
    (hn : n ≤ 65534) :
    LogListPartitioner.run (initPartitioner ⟨ox, oy, width, height⟩ n)
      = some (LogListPartitioner.runFuel n (initPartitioner ⟨ox, oy, width, height⟩ n))
    ∧ (LogListPartitioner.runFuel n
        (initPartitioner ⟨ox, oy, width, height⟩ n)).length
        = (if height = 0 then 0 else n)
    ∧ (LogListPartitioner.runFuel n
        (initPartitioner ⟨ox, oy, width, height⟩ n)).Pairwise Rect.Disjoint
    ∧ ∀ r ∈ LogListPartitioner.runFuel n (initPartitioner ⟨ox, oy, width, height⟩ n),
        r.within ⟨ox, oy, width, height⟩ := by
  refine ⟨LogListPartitioner.runP_eq_runFuel hn,
    LogListPartitioner.runFuel_self_length (initPartitioner ⟨ox, oy, width, height⟩ n),
    LogListPartitioner.runFuel_pairwise hn (initPartitioner_XW _ _), ?_⟩
  intro r hr
  have h : ox ≤ r.x ∧ r.x + r.width ≤ ox + width ∧ oy ≤ r.y ∧
      r.y + r.height ≤ oy + (0 + height) :=
    LogListPartitioner.runFuel_bounds hn
      (initPartitioner_XW ⟨ox, oy, width, height⟩ n) r hr
  show ox ≤ r.x ∧ r.x + r.width ≤ ox + width ∧ oy ≤ r.y ∧ r.y + r.height ≤ oy + height
  omega

/-- Concrete instantiation of the C1 theorem on a 2 by 2 area with three
items: the run completes, and the first yielded rectangle lies within the
area. -/
theorem C1_partitioner_witness :
    LogListPartitioner.run (initPartitioner ⟨0, 0, 2, 2⟩ 3)
      = some (LogListPartitioner.runFuel 3 (initPartitioner ⟨0, 0, 2, 2⟩ 3))
    ∧ Rect.within ⟨0, 0, 1, 1⟩ ⟨0, 0, 2, 2⟩ :=
  ⟨(C1_partitioner_count_disjoint_bounds 2 2 3 0 0 (by decide)).1,
   (C1_partitioner_count_disjoint_bounds 2 2 3 0 0 (by decide)).2.2.2
     ⟨0, 0, 1, 1⟩ (by decide)⟩

/-- On a 2 by 2 area with ten items the partitioner completes and yields ten
rectangles, not min(10, 4) = 4, refuting the claimed rectangle count. -/
theorem C1_counterexample :
    (LogListPartitioner.run (initPartitioner ⟨0, 0, 2, 2⟩ 10)).map List.length
      ≠ some (min 10 (2 * 2)) := by decide

/-- Claim C5 (amended): the run yields the empty sequence exactly when the
item count is zero or the height is zero.  A zero width alone does not give
the empty sequence: the yielded rectangles merely have zero width (and at
the u16-maximal count 65535 the run can instead die in a division by zero,
which is not the empty sequence either). -/
theorem C5_empty_iff (width height n ox oy : Nat) :
    LogListPartitioner.run (initPartitioner ⟨ox, oy, width, height⟩ n) = some []
      ↔ (n = 0 ∨ height = 0) := by
  constructor
  · intro he
    by_contra hcon
    push_neg at hcon
    obtain ⟨hn, hh⟩ := hcon
    obtain ⟨m, hm⟩ : ∃ m, n = m + 1 := ⟨n - 1, by omega⟩
    subst hm
    have hg : ¬((initPartitioner ⟨ox, oy, width, height⟩ (m + 1)).height = 0
        ∨ (initPartitioner ⟨ox, oy, width, height⟩ (m + 1)).length = 0) := by
      show ¬(height = 0 ∨ m + 1 = 0)
      omega
    rw [show LogListPartitioner.run (initPartitioner ⟨ox, oy, width, height⟩ (m + 1))
        = LogListPartitioner.runP (m + 1)
            (initPartitioner ⟨ox, oy, width, height⟩ (m + 1)) from rfl] at he
    rcases LogListPartitioner.next_none_or_emit hg with hnx | hnx
    · rw [LogListPartitioner.runP_succ, hnx] at he
      cases he
    · rw [LogListPartitioner.runP_succ_emit hnx] at he
      rcases hrp : LogListPartitioner.runP m
          (LogListPartitioner.step (initPartitioner ⟨ox, oy, width, height⟩ (m + 1)))
          with _ | rs
      · rw [hrp] at he
        cases he
      · rw [hrp] at he
        simp at he
  · intro hor
    rcases hor with hn | hh0
    · subst hn
      rfl
    · cases n with
      | zero => rfl
      | succ m =>
        rw [show LogListPartitioner.run (initPartitioner ⟨ox, oy, width, height⟩ (m + 1))
            = LogListPartitioner.runP (m + 1)
                (initPartitioner ⟨ox, oy, width, height⟩ (m + 1)) from rfl,
          LogListPartitioner.runP_succ_exhausted (LogListPartitioner.next_guard
            (Or.inl (show (initPartitioner
              ⟨ox, oy, width, height⟩ (m + 1)).height = 0 from hh0)))]

/-- A zero-width area of height one with one item completes and yields one
rectangle, so width = 0 does not produce the empty sequence the claim
asserts. -/
theorem C5_counterexample :
    LogListPartitioner.run (initPartitioner ⟨0, 0, 0, 1⟩ 1) ≠ some [] := by decide

/-- Claim C9 (amended): for width ≥ 1 and height ≥ 1 such that the u16
product (height - 1) * width does not overflow (stays below 65536), a single
item yields exactly one rectangle equal to the full input area (a count of 1
can never make the width divisor wrap, so the run always completes).  When
the product wraps, the single rectangle can be narrower than the area. -/
theorem C9_single_full_area (width height ox oy : Nat) (hw : 1 ≤ width)
    (hh : 1 ≤ height) (hov : (height - 1) * width < 65536) :
    LogListPartitioner.run (initPartitioner ⟨ox, oy, width, height⟩ 1)
      = some [⟨ox, oy, width, height⟩] := by
  set s := initPartitioner ⟨ox, oy, width, height⟩ 1 with hs
  have hsh : s.height = height := rfl
  have hsl : s.length = 1 := rfl
  have hsw : s.width = width := rfl
  have hsm : s.max_width = width := rfl
  have hprod1 : height = 1 → (height - 1) * width = 0 := by
    intro h1
    rw [h1]
    simp
  have hprod2 : height ≠ 1 → 1 ≤ (height - 1) * width := by
    intro h1
    exact Nat.mul_pos (by omega) hw
  have hmod : (height - 1) * width % 65536 = (height - 1) * width :=
    Nat.mod_eq_of_lt hov
  have hwd : LogListPartitioner.wdiv s = 1 := by
    simp only [LogListPartitioner.wdiv, LogListPartitioner.after, hsh, hsl, hsm, hmod]
    split_ifs with hc
    · have := hprod1 hc.1
      omega
    · by_cases h1 : height = 1
      · exact absurd ⟨h1, by have := hprod1 h1; omega⟩ hc
      · have := hprod2 h1
        omega
  have hhd : LogListPartitioner.hdiv s = 1 := by
    simp only [LogListPartitioner.hdiv, hsh, hsl]
    omega
  have hcw : LogListPartitioner.cellW s = width := by
    rw [LogListPartitioner.cellW, hwd, hsw, ceilT_one]
  have hch : LogListPartitioner.cellH s = height := by
    rw [LogListPartitioner.cellH, hhd, hsh, ceilT_one]
  have hrun : LogListPartitioner.run s = some (LogListPartitioner.runFuel 1 s) :=
    LogListPartitioner.runP_eq_runFuel (by rw [hsl]; omega)
  rw [hrun, LogListPartitioner.runFuel_succ,
    if_neg (by rw [hsh, hsl]; omega : ¬(s.height = 0 ∨ s.length = 0))]
  have hemit : LogListPartitioner.emitRect s = ⟨ox, oy, width, height⟩ := by
    simp only [LogListPartitioner.emitRect, hcw, hch]
    show (⟨0 + ox, 0 + oy, width, height⟩ : Rect) = ⟨ox, oy, width, height⟩
    simp
  rw [hemit]
  rfl

/-- Concrete instantiation of the C9 theorem at a standard 80 by 24 area. -/
theorem C9_witness :
    LogListPartitioner.run (initPartitioner ⟨0, 0, 80, 24⟩ 1)
      = some [⟨0, 0, 80, 24⟩] :=
  C9_single_full_area 80 24 0 0 (by decide) (by decide) (by decide)

/-- At width 256 and height 257 the u16 product (height - 1) * width wraps to
0, and the single yielded rectangle has width 128, not the full area (in a
checked build the multiplication panics there instead). -/
theorem C9_counterexample :
    LogListPartitioner.run (initPartitioner ⟨0, 0, 256, 257⟩ 1)
      ≠ some [⟨0, 0, 256, 257⟩] := by decide

/-- Claim C10 (amended): fn ceil returns 0 whenever its numerator is 0, but
divides by zero (a Rust panic) when the divisor is 0 and the numerator is
not, rather than returning 0.  Nor is next total: at length 65535 with
after = 0 the u16 computation of wdiv wraps to 0 and fn ceil divides by
zero there (theorem next_wrap_panics).  Whenever at most 65534 items remain,
however, every emitting call is safe: both divisors are at least 1, fn ceil
is defined and agrees with the total variant used in the model, next
yields, the emitted cell width never exceeds the remaining width, and the
emitted cell height minus one never exceeds the remaining height (no u16
subtraction underflow). -/
theorem C10_next_total (s : LogListPartitioner) (hh : s.height ≠ 0)
    (hl : s.length ≠ 0) (hub : s.length ≤ 65534) :
    1 ≤ LogListPartitioner.wdiv s ∧ 1 ≤ LogListPartitioner.hdiv s
    ∧ ceil s.width (LogListPartitioner.wdiv s) = some (LogListPartitioner.cellW s)
    ∧ ceil s.height (LogListPartitioner.hdiv s) = some (LogListPartitioner.cellH s)
    ∧ LogListPartitioner.next s
        = some (some (LogListPartitioner.emitRect s, LogListPartitioner.step s))
    ∧ LogListPartitioner.cellW s ≤ s.width
    ∧ LogListPartitioner.cellH s - 1 ≤ s.height := by
  have h1 : 1 ≤ LogListPartitioner.wdiv s :=
    LogListPartitioner.wdiv_pos (by omega) hub
  have h2 : 1 ≤ LogListPartitioner.hdiv s :=
    LogListPartitioner.hdiv_pos (by omega) (by omega)
  have h3 := LogListPartitioner.cellW_le (s := s) (by omega) hub
  have h4 := LogListPartitioner.cellH_le (s := s) (by omega) (by omega)
  exact ⟨h1, h2, ceil_eq_ceilT (by omega), ceil_eq_ceilT (by omega),
    LogListPartitioner.next_emit hh hl hub, h3, by omega⟩

/-- Concrete instantiation of the C10 theorem at an 80 by 24 area with five
items. -/
theorem C10_witness :
    1 ≤ LogListPartitioner.wdiv (initPartitioner ⟨0, 0, 80, 24⟩ 5)
    ∧ 1 ≤ LogListPartitioner.hdiv (initPartitioner ⟨0, 0, 80, 24⟩ 5)
    ∧ ceil (initPartitioner ⟨0, 0, 80, 24⟩ 5).width
        (LogListPartitioner.wdiv (initPartitioner ⟨0, 0, 80, 24⟩ 5))
        = some (LogListPartitioner.cellW (initPartitioner ⟨0, 0, 80, 24⟩ 5))
    ∧ ceil (initPartitioner ⟨0, 0, 80, 24⟩ 5).height
        (LogListPartitioner.hdiv (initPartitioner ⟨0, 0, 80, 24⟩ 5))
        = some (LogListPartitioner.cellH (initPartitioner ⟨0, 0, 80, 24⟩ 5))
    ∧ LogListPartitioner.next (initPartitioner ⟨0, 0, 80, 24⟩ 5)
        = some (some (LogListPartitioner.emitRect (initPartitioner ⟨0, 0, 80, 24⟩ 5),
            LogListPartitioner.step (initPartitioner ⟨0, 0, 80, 24⟩ 5)))
    ∧ LogListPartitioner.cellW (initPartitioner ⟨0, 0, 80, 24⟩ 5)
        ≤ (initPartitioner ⟨0, 0, 80, 24⟩ 5).width
    ∧ LogListPartitioner.cellH (initPartitioner ⟨0, 0, 80, 24⟩ 5) - 1
        ≤ (initPartitioner ⟨0, 0, 80, 24⟩ 5).height :=
  C10_next_total (initPartitioner ⟨0, 0, 80, 24⟩ 5) (by decide) (by decide) (by decide)

/-- fn ceil at numerator 1 and divisor 0 divides by zero (modelled none)
rather than returning 0, refuting the claimed divisor-zero guard. -/
theorem C10_counterexample : ceil 1 0 ≠ some 0 := by decide

/-! The loss formula (claim C3). -/

theorem received_le_sent (c : PacketChunk) : c.received ≤ c.sent :=
  List.length_filter_le _ _

/-- Claim C3 (amended): loss() is total, always lies in [0,1], returns 0 on
zero attempts, and equals 1 - received/sent guarded on sent > 0 — not on
received > 0 as the claim words it: an entry whose probes were all dropped
has sent > 0, received = 0 and loss 1, where the claimed formula yields 0. -/
theorem C3_loss_bounds (c : PacketChunk) :
    0 ≤ c.loss ∧ c.loss ≤ 1
    ∧ (c.sent = 0 → c.loss = 0)
    ∧ c.loss = (if 0 < c.sent then 1 - ((c.received : ℚ) / (c.sent : ℚ)) else 0) := by
  have hrs : c.received ≤ c.sent := received_le_sent c
  by_cases hs : c.sent = 0
  · simp [PacketChunk.loss, hs]
  · have hpos : 0 < c.sent := Nat.pos_of_ne_zero hs
    have hq : (0 : ℚ) < (c.sent : ℚ) := by exact_mod_cast hpos
    have hdiv1 : ((c.received : ℚ) / (c.sent : ℚ)) ≤ 1 := by
      rw [div_le_one hq]
      exact_mod_cast hrs
    have hdiv0 : (0 : ℚ) ≤ ((c.received : ℚ) / (c.sent : ℚ)) :=
      div_nonneg (by positivity) (le_of_lt hq)
    refine ⟨?_, ?_, fun h => absurd h hs, ?_⟩
    · simp only [PacketChunk.loss, if_neg hs]
      linarith
    · simp only [PacketChunk.loss, if_neg hs]
      linarith
    · simp [PacketChunk.loss, hs, hpos]

/-- Concrete instantiation of the C3 theorem: the zero-attempt entry has
loss 0. -/
theorem C3_witness : emptyChunk.loss = 0 :=
  (C3_loss_bounds emptyChunk).2.2.1 rfl

/-- On the all-dropped chunk the source loss() yields 1, while the formula
the claim states (guarded on received > 0) yields 0. -/
theorem C3_counterexample : droppedChunk.loss ≠ lossSpec droppedChunk := by
  norm_num [PacketChunk.loss, lossSpec, PacketChunk.received, PacketChunk.sent,
    droppedChunk]

/-! The bounded history buffer (claims C2 and C4). -/

/-- Inserting latencies 50, 30, 70, 10 into a max-3 buffer leaves the
latencies [10, 70], not the [10, 70, 30] the claim states: the eviction test
len >= max already fires at length 3. -/
theorem C2_counterexample :
    ((LogList.new 3).insertAll
        [mkChunk 50, mkChunk 30, mkChunk 70, mkChunk 10]).items.map PacketChunk.latency
      ≠ [10, 70, 30] := by
  have h : ((LogList.new 3).insertAll
      [mkChunk 50, mkChunk 30, mkChunk 70, mkChunk 10]).items.map PacketChunk.latency
      = [10, 70] := by
    norm_num [LogList.insertAll, LogList.insert, LogList.new, mkChunk,
      PacketChunk.latency]
  rw [h]
  simp

/-- Claim C2 (amended): with max = 3, inserting entries of latencies
50, 30, 70, 10 in order leaves the buffer holding, newest first, exactly the
entries with latencies [10, 70] — the eviction test len >= max fires at
length 3, so a max-3 buffer retains two entries — and min_latency is 10. -/
theorem C2_trace :
    ((LogList.new 3).insertAll
        [mkChunk 50, mkChunk 30, mkChunk 70, mkChunk 10]).items.map PacketChunk.latency
      = [10, 70]
    ∧ ((LogList.new 3).insertAll
        [mkChunk 50, mkChunk 30, mkChunk 70, mkChunk 10]).min_latency = some 10 := by
  constructor <;>
    norm_num [LogList.insertAll, LogList.insert, LogList.new, mkChunk,
      PacketChunk.latency]

theorem LogList.insert_max (l : LogList) (e : PacketChunk) :
    (l.insert e).max = l.max := rfl

theorem LogList.insert_items_take {l : LogList} {R : List PacketChunk}
    (hR : l.items = R.take (l.max - 1)) (e : PacketChunk) :
    (l.insert e).items = (e :: R).take (l.max - 1) := by
  have hlen : l.items.length = min (l.max - 1) R.length := by
    rw [hR, List.length_take]
  show (if l.max ≤ (e :: l.items).length then (e :: l.items).dropLast else e :: l.items)
      = (e :: R).take (l.max - 1)
  split_ifs with hc
  · rw [List.dropLast_eq_take]
    simp only [List.length_cons] at hc ⊢
    rcases Nat.eq_zero_or_pos l.max with hm | hm
    · simp [hm] at hR ⊢
      simp [hR]
    · have hil : l.items.length = l.max - 1 := by omega
      have hRlen : l.max - 1 ≤ R.length := by omega
      rw [hil]
      rcases Nat.eq_zero_or_pos (l.max - 1) with h1 | h1
      · simp [h1]
      · have h2 : l.max - 1 = (l.max - 2) + 1 := by omega
        rw [h2, List.take_succ_cons]
        have h3 : l.max - 2 + 1 + 1 - 1 = (l.max - 2) + 1 := by omega
        rw [h3, List.take_succ_cons, hR, h2, List.take_take]
        have h4 : min (l.max - 2) (l.max - 2 + 1) = l.max - 2 := by omega
        rw [h4]
  · simp only [List.length_cons] at hc
    have hRsmall : R.length < l.max - 1 := by omega
    have hitems : l.items = R := by
      rw [hR, List.take_of_length_le (by omega)]
    rw [hitems, List.take_of_length_le (by simp; omega)]

theorem LogList.insertAll_items_aux (es : List PacketChunk) :
    ∀ (l : LogList) (R : List PacketChunk), l.items = R.take (l.max - 1) →
      (l.insertAll es).items = (es.reverse ++ R).take (l.max - 1) := by
  induction es with
  | nil =>
    intro l R hR
    simpa [LogList.insertAll] using hR
  | cons e es ih =>
    intro l R hR
    have h1 : (l.insert e).items = (e :: R).take ((l.insert e).max - 1) :=
      LogList.insert_items_take hR e
    have h2 := ih (l.insert e) (e :: R) h1
    rw [show l.insertAll (e :: es) = (l.insert e).insertAll es from rfl, h2,
      LogList.insert_max]
    congr 1
    simp

/-- Claim C4 (amended): for every capacity and every insert sequence the
buffer length never exceeds the capacity — that half of the claim holds —
but because the eviction test fires at len = capacity, the buffer retains
only the capacity - 1 most recent entries, newest first: after inserting
capacity + 1 entries the oldest is absent, yet only capacity - 1 (not
capacity) entries remain. -/
theorem C4_buffer_bound (cap : Nat) (es : List PacketChunk) :
    ((LogList.new cap).insertAll es).items.length ≤ cap
    ∧ ((LogList.new cap).insertAll es).items = es.reverse.take (cap - 1) := by
  have h := LogList.insertAll_items_aux es (LogList.new cap) [] (by simp [LogList.new])
  have hm : (LogList.new cap).max = cap := rfl
  rw [hm, List.append_nil] at h
  refine ⟨?_, h⟩
  rw [h, List.length_take]
  omega

/-! Elementary facts about setTint and tintAt. -/

theorem setTint_lt {items : List PacketChunk} {i : Nat} {w : ℚ}
    {out : List PacketChunk} (h : setTint items i w = some out) :
    i < items.length := by
  by_cases hi : i < items.length
  · exact hi
  · rw [setTint, List.getElem?_eq_none (by omega)] at h
    cases h

theorem setTint_eq {items : List PacketChunk} {i : Nat} {w : ℚ}
    {out : List PacketChunk} (h : setTint items i w = some out) :
    out = items.set i ((items.get ⟨i, setTint_lt h⟩).setTintWeight w) := by
  have hi := setTint_lt h
  rw [setTint, List.getElem?_eq_getElem hi] at h
  exact (Option.some_inj.mp h).symm

theorem setTint_length {items : List PacketChunk} {i : Nat} {w : ℚ}
    {out : List PacketChunk} (h : setTint items i w = some out) :
    out.length = items.length := by
  rw [setTint_eq h]
  simp

theorem setTintWeight_tint (c : PacketChunk) (w : ℚ) :
    (c.setTintWeight w).tint_weight
      = if 1 < w then 1 else if w < 0 then 0 else w := by
  simp only [PacketChunk.setTintWeight]
  split_ifs <;> rfl

theorem tintAt_setTint_self {items : List PacketChunk} {i : Nat} {w : ℚ}
    {out : List PacketChunk} (h : setTint items i w = some out) :
    tintAt out i = if 1 < w then 1 else if w < 0 then 0 else w := by
  have hi := setTint_lt h
  rw [setTint_eq h, tintAt, List.getElem?_set_self hi]
  simp [setTintWeight_tint]

theorem tintAt_setTint_ne {items : List PacketChunk} {i : Nat} {w : ℚ}
    {out : List PacketChunk} (h : setTint items i w = some out)
    {j : Nat} (hne : j ≠ i) : tintAt out j = tintAt items j := by
  rw [setTint_eq h, tintAt, tintAt, List.getElem?_set_ne (by omega)]

theorem tintAt_cons_zero (c : PacketChunk) (items : List PacketChunk) :
    tintAt (c :: items) 0 = c.tint_weight := by
  rw [tintAt, List.getElem?_cons_zero]
  rfl

theorem tintAt_cons_succ (c : PacketChunk) (items : List PacketChunk)
    (k : Nat) : tintAt (c :: items) (k + 1) = tintAt items k := by
  rw [tintAt, tintAt, List.getElem?_cons_succ]

theorem tintAt_dropLast (items : List PacketChunk) (k : Nat) :
    tintAt items.dropLast k
      = if k < items.length - 1 then tintAt items k else 0 := by
  split_ifs with hk
  · have h1 : k < items.dropLast.length := by
      rw [List.length_dropLast]
      omega
    rw [tintAt, tintAt, List.getElem?_eq_getElem h1,
      List.getElem?_eq_getElem (by omega), List.getElem_dropLast]
  · rw [tintAt, List.getElem?_eq_none (by rw [List.length_dropLast]; omega)]
    rfl

theorem insert_tintAt_cases (l : LogList) (item : PacketChunk) {k : Nat}
    (h : tintAt (l.insert item).items k ≠ 0) :
    (k = 0 ∧ item.tint_weight ≠ 0) ∨ (1 ≤ k ∧ tintAt l.items (k - 1) ≠ 0) := by
  have hitems : (l.insert item).items
      = if l.max ≤ (item :: l.items).length then (item :: l.items).dropLast
        else item :: l.items := rfl
  rw [hitems] at h
  have hcons : tintAt (item :: l.items) k ≠ 0 →
      (k = 0 ∧ item.tint_weight ≠ 0) ∨ (1 ≤ k ∧ tintAt l.items (k - 1) ≠ 0) := by
    intro h2
    cases k with
    | zero =>
      rw [tintAt_cons_zero] at h2
      exact Or.inl ⟨rfl, h2⟩
    | succ n =>
      refine Or.inr ⟨by omega, ?_⟩
      rw [tintAt_cons_succ] at h2
      exact h2
  split_ifs at h with hc
  · rw [tintAt_dropLast] at h
    split_ifs at h with h2
    · exact hcons h
    · exact absurd rfl h
  · exact hcons h

theorem insert_items_length (l : LogList) (item : PacketChunk) :
    (l.insert item).items.length
      = if l.max ≤ l.items.length + 1 then l.items.length
        else l.items.length + 1 := by
  have hitems : (l.insert item).items
      = if l.max ≤ (item :: l.items).length then (item :: l.items).dropLast
        else item :: l.items := rfl
  rw [hitems]
  simp only [List.length_cons]
  split_ifs with hc
  · rw [List.length_dropLast]
    simp
  · simp

namespace SelectableLogList

theorem len_eq (s : SelectableLogList) : s.len = s.list.items.length := rfl

theorem withItems_selection (s : SelectableLogList) (items : List PacketChunk) :
    (s.withItems items).selection = s.selection := rfl

theorem clearOldTint_spec {s : SelectableLogList} {items0 : List PacketChunk}
    (h : s.clearOldTint = some items0) :
    items0.length = s.list.items.length ∧
    (∀ k, tintAt items0 k
        = if s.selection = some k then 0 else tintAt s.list.items k) := by
  rw [clearOldTint] at h
  cases hsel : s.selection with
  | none =>
    rw [hsel] at h
    obtain rfl := Option.some_inj.mp h
    exact ⟨rfl, fun k => by simp⟩
  | some i =>
    rw [hsel] at h
    refine ⟨setTint_length h, fun k => ?_⟩
    by_cases hk : k = i
    · subst hk
      rw [tintAt_setTint_self h]
      simp
    · rw [tintAt_setTint_ne h hk]
      simp only [Option.some.injEq]
      rw [if_neg (fun he => hk he.symm)]

theorem select_some_spec {s : SelectableLogList} {j : Nat}
    {s1 : SelectableLogList} (h : s.select j = some s1) :
    s1.selection = some j
    ∧ s1.list.items.length = s.list.items.length
    ∧ j < s.list.items.length
    ∧ tintAt s1.list.items j = 1 / 2
    ∧ ∀ k, k ≠ j → tintAt s1.list.items k
        = (if s.selection = some k then 0 else tintAt s.list.items k) := by
  rw [select] at h
  rcases hclear : s.clearOldTint with _ | items0
  · rw [hclear] at h
    cases h
  · rw [hclear, Option.some_bind] at h
    rcases hset : setTint items0 j (1 / 2) with _ | items1
    · rw [hset, Option.map_none'] at h
      cases h
    · rw [hset, Option.map_some'] at h
      obtain rfl := Option.some_inj.mp h
      obtain ⟨hl0, ht0⟩ := clearOldTint_spec hclear
      have hjl : j < items0.length := setTint_lt hset
      refine ⟨rfl, ?_, by omega, ?_, ?_⟩
      · rw [show ({ s.withItems items1 with selection := some j }
            : SelectableLogList).list.items = items1 from rfl]
        rw [setTint_length hset, hl0]
      · rw [show ({ s.withItems items1 with selection := some j }
            : SelectableLogList).list.items = items1 from rfl]
        rw [tintAt_setTint_self hset]
        norm_num
      · intro k hk
        rw [show ({ s.withItems items1 with selection := some j }
            : SelectableLogList).list.items = items1 from rfl]
        rw [tintAt_setTint_ne hset hk, ht0 k]

theorem TintInv_new (max : Nat) : TintInv (SelectableLogList.new max) := by
  constructor
  · intro i hi
    cases hi
  · intro j _
    rfl

theorem TintInv_select {s : SelectableLogList} {j : Nat}
    {s1 : SelectableLogList} (hinv : TintInv s) (h : s.select j = some s1) :
    TintInv s1 := by
  obtain ⟨hsel, hlen, hj, htj, hothers⟩ := select_some_spec h
  constructor
  · intro i hi
    rw [hsel] at hi
    obtain rfl : j = i := Option.some_inj.mp hi
    rw [len_eq, hlen]
    exact hj
  · intro k hk
    have hkj : k ≠ j := fun he => hk (by rw [hsel, he])
    rw [hothers k hkj]
    split_ifs with hc
    · rfl
    · exact hinv.2 k hc

theorem TintInv_insert {s : SelectableLogList} {item : PacketChunk}
    {s1 : SelectableLogList} (hinv : TintInv s) (htint : item.tint_weight = 0)
    (h : s.insert item = some s1) : TintInv s1 := by
  rw [insert] at h
  cases hsel : s.selection with
  | none =>
    simp only [hsel] at h
    obtain rfl := Option.some_inj.mp h
    constructor
    · intro i hi
      exact Option.noConfusion hi
    · intro j _
      show tintAt (s.list.insert item).items j = 0
      by_contra hne
      rcases insert_tintAt_cases s.list item hne with ⟨_, hti⟩ | ⟨_, hprev⟩
      · exact hti htint
      · exact hprev (hinv.2 (j - 1)
          (by rw [hsel]; exact fun hc => Option.noConfusion hc))
  | some i =>
    simp only [hsel] at h
    by_cases hip : 0 < i
    · rw [if_pos hip] at h
      obtain ⟨hsel1, hlen1, hj1, htj1, hothers1⟩ := select_some_spec h
      constructor
      · intro i2 hi2
        rw [hsel1] at hi2
        obtain rfl : i + 1 = i2 := Option.some_inj.mp hi2
        rw [len_eq, hlen1]
        exact hj1
      · intro k hk
        have hki : k ≠ i + 1 := fun he => hk (by rw [hsel1, he])
        rw [hothers1 k hki]
        split_ifs with hc
        · rfl
        · have hik : i ≠ k := fun he => hc (show _ = some k by rw [← he])
          show tintAt (s.list.insert item).items k = 0
          by_contra hne
          rcases insert_tintAt_cases s.list item hne with ⟨_, hti⟩ | ⟨hge, hprev⟩
          · exact hti htint
          · refine hprev (hinv.2 (k - 1) (fun hc2 => ?_))
            rw [hsel] at hc2
            have : i = k - 1 := Option.some_inj.mp hc2
            omega
    · rw [if_neg hip] at h
      have hi0 : i = 0 := by omega
      subst hi0
      rcases hset : setTint (s.list.insert item).items 1 0 with _ | items2
      · rw [hset, Option.map_none'] at h
        cases h
      · rw [hset, Option.map_some'] at h
        obtain rfl := Option.some_inj.mp h
        have hlen2 := setTint_length hset
        have hlt := setTint_lt hset
        constructor
        · intro i2 hi2
          have hi20 : i2 = 0 :=
            (Option.some_inj.mp (show some 0 = some i2 from hi2)).symm
          subst hi20
          rw [len_eq]
          show 0 < items2.length
          omega
        · intro k hk
          have hk0 : k ≠ 0 := fun he => hk (by subst he; rfl)
          show tintAt items2 k = 0
          by_cases hk1 : k = 1
          · subst hk1
            rw [tintAt_setTint_self hset]
            norm_num
          · rw [tintAt_setTint_ne hset hk1]
            by_contra hne
            rcases insert_tintAt_cases s.list item hne with ⟨h0, hti⟩ | ⟨hge, hprev⟩
            · exact hk0 h0
            · refine hprev (hinv.2 (k - 1) (fun hc2 => ?_))
              rw [hsel] at hc2
              have : 0 = k - 1 := Option.some_inj.mp hc2
              omega

theorem TintInv_clear {s : SelectableLogList} {s1 : SelectableLogList}
    (hinv : TintInv s) (h : s.clear = some s1) :
    TintInv s1 ∧ ∀ j, tintAt s1.list.items j = 0 := by
  rw [clear] at h
  cases hsel : s.selection with
  | none =>
    simp only [hsel] at h
    obtain rfl := Option.some_inj.mp h
    have hz : ∀ j, tintAt s.list.items j = 0 := by
      intro j
      exact hinv.2 j (by rw [hsel]; exact fun hc => Option.noConfusion hc)
    exact ⟨⟨fun i hi => Option.noConfusion hi, fun j _ => hz j⟩, hz⟩
  | some i =>
    simp only [hsel] at h
    rcases hset : setTint s.list.items i 0 with _ | items2
    · rw [hset, Option.map_none'] at h
      cases h
    · rw [hset, Option.map_some'] at h
      obtain rfl := Option.some_inj.mp h
      have hz : ∀ j, tintAt items2 j = 0 := by
        intro j
        by_cases hj : j = i
        · subst hj
          rw [tintAt_setTint_self hset]
          norm_num
        · rw [tintAt_setTint_ne hset hj]
          refine hinv.2 j ?_
          rw [hsel]
          intro hc
          exact hj (Option.some_inj.mp hc).symm
      exact ⟨⟨fun i2 hi2 => Option.noConfusion hi2, fun j _ => hz j⟩, hz⟩

theorem TintInv_select_next {s : SelectableLogList} {s1 : SelectableLogList}
    (hinv : TintInv s) (h : s.select_next = some s1) : TintInv s1 := by
  rw [select_next] at h
  cases hsel : s.selection with
  | none =>
    simp only [hsel] at h
    exact TintInv_select hinv h
  | some i =>
    simp only [hsel] at h
    split_ifs at h with h0 h1
    · exact TintInv_select hinv h
    · obtain rfl := Option.some_inj.mp h
      exact hinv

theorem TintInv_select_prev {s : SelectableLogList} {s1 : SelectableLogList}
    (hinv : TintInv s) (h : s.select_prev = some s1) : TintInv s1 := by
  rw [select_prev] at h
  cases hsel : s.selection with
  | none =>
    simp only [hsel] at h
    exact TintInv_select hinv h
  | some i =>
    simp only [hsel] at h
    split_ifs at h with h0
    · exact TintInv_select hinv h
    · obtain rfl := Option.some_inj.mp h
      exact hinv

theorem TintInv_select_first {s : SelectableLogList} {s1 : SelectableLogList}
    (hinv : TintInv s) (h : s.select_first = some s1) : TintInv s1 :=
  TintInv_select hinv h

theorem TintInv_select_last {s : SelectableLogList} {s1 : SelectableLogList}
    (hinv : TintInv s) (h : s.select_last = some s1) : TintInv s1 := by
  rw [select_last] at h
  split_ifs at h with h0
  exact TintInv_select hinv h

theorem TintInv_draw {s : SelectableLogList} (hinv : TintInv s) (b : Bool) :
    TintInv (s.drawTints b) := by
  rw [drawTints]
  cases hsel : s.selection with
  | none =>
    simp only [hsel]
    exact hinv
  | some i =>
    simp only [hsel]
    split_ifs with hc
    · rcases hset : setTint s.list.items i (1 / 2) with _ | items2
      · simp only [hset]
        exact hinv
      · simp only [hset]
        constructor
        · intro i2 hi2
          rw [withItems_selection, hsel] at hi2
          obtain rfl : i = i2 := Option.some_inj.mp hi2
          rw [len_eq]
          show i < items2.length
          rw [setTint_length hset]
          exact setTint_lt hset
        · intro k hk
          have hki : k ≠ i := fun he => hk (by
            rw [withItems_selection, hsel, he])
          show tintAt items2 k = 0
          rw [tintAt_setTint_ne hset hki]
          refine hinv.2 k ?_
          rw [hsel]
          intro hc2
          exact hki (Option.some_inj.mp hc2).symm
    · exact hinv

end SelectableLogList

theorem TintInv_reachable {s : SelectableLogList} (h : Reachable s) :
    TintInv s := by
  induction h with
  | new max => exact SelectableLogList.TintInv_new max
  | insert hr htint hop ih => exact SelectableLogList.TintInv_insert ih htint hop
  | select_next hr hop ih => exact SelectableLogList.TintInv_select_next ih hop
  | select_prev hr hop ih => exact SelectableLogList.TintInv_select_prev ih hop
  | select_first hr hop ih => exact SelectableLogList.TintInv_select_first ih hop
  | select_last hr hop ih => exact SelectableLogList.TintInv_select_last ih hop
  | clear hr hop ih => exact (SelectableLogList.TintInv_clear ih hop).1
  | draw b hr ih => exact SelectableLogList.TintInv_draw ih b

/-- Claim C6 (code bug): select_next on an empty buffer with nothing selected
calls select(0), which writes items[0].tint_weight on the empty buffer — an
out-of-bounds index, a Rust panic, modelled none — instead of the no-op the
claim describes. -/
theorem C6_select_next_empty_panics :
    (SelectableLogList.new 5).select_next = none := rfl

/-- Claim C7 (code bug): the insert that evicts the selected tail entry never
re-validates the stored index through has_selection: the sticky-top branch
calls select(3), which writes items[3].tint_weight while only three entries
remain — an out-of-bounds index, a Rust panic, modelled none — instead of
treating the invalid index as Unselected.  clear and the navigation
operations index without the has_selection re-validation in the same way;
only draw checks it. -/
theorem C7_insert_evicted_selection_panics :
    c7State.insert (mkChunk 4) = none := by
  norm_num [SelectableLogList.insert, SelectableLogList.select,
    SelectableLogList.clearOldTint, setTint, c7State, mkChunk, LogList.insert,
    PacketChunk.latency, PacketChunk.setTintWeight]

/-- Claim C8: in every reachable overlay state at most one buffer entry has a
non-zero tint weight — any entry with a non-zero tint weight sits exactly at
the selected index — and after the clear operation every entry in the buffer
has tint weight zero. -/
theorem C8_tint_discipline {s : SelectableLogList} (hs : Reachable s) :
    (∀ j, tintAt s.list.items j ≠ 0 → s.selection = some j)
    ∧ (∀ s1, s.clear = some s1 → ∀ c ∈ s1.list.items, c.tint_weight = 0) := by
  have hinv := TintInv_reachable hs
  constructor
  · intro j hj
    by_contra hne
    exact hj (hinv.2 j hne)
  · intro s1 hc c hmem
    have hall := (SelectableLogList.TintInv_clear hinv hc).2
    obtain ⟨k, hk, rfl⟩ := List.mem_iff_getElem.mp hmem
    have hz := hall k
    rw [tintAt, List.getElem?_eq_getElem hk, Option.map_some',
      Option.getD_some] at hz
    exact hz

/-- Concrete instantiation of the C8 theorem on a reachable two-step state:
the tinted entry at position 0 is the selected one. -/
theorem C8_witness : c8Sel.selection = some 0 := by
  have h1 : Reachable c8Mid :=
    @Reachable.insert (SelectableLogList.new 3) c8Mid emptyChunk
      (Reachable.new 3) rfl (by
      norm_num [SelectableLogList.insert, SelectableLogList.new, LogList.new,
        LogList.insert, PacketChunk.latency, emptyChunk, c8Mid])
  have h2 : Reachable c8Sel :=
    @Reachable.select_next c8Mid c8Sel h1 (by
      norm_num [SelectableLogList.select_next, SelectableLogList.select,
        SelectableLogList.clearOldTint, SelectableLogList.withItems, setTint,
        c8Mid, c8Sel, emptyChunk, PacketChunk.setTintWeight])
  refine (C8_tint_discipline h2).1 0 ?_
  norm_num [tintAt, c8Sel]

/-- After inserting capacity + 1 = 4 entries into a capacity-3 buffer the
buffer holds two entries, not the three most recent the claim asserts. -/
theorem C4_counterexample :
    ((LogList.new 3).insertAll [mkChunk 1, mkChunk 2, mkChunk 3, mkChunk 4]).items
      ≠ [mkChunk 4, mkChunk 3, mkChunk 2] := by
  have h : ((LogList.new 3).insertAll [mkChunk 1, mkChunk 2, mkChunk 3, mkChunk 4]).items
      = [mkChunk 4, mkChunk 3] := by
    norm_num [LogList.insertAll, LogList.insert, LogList.new, mkChunk,
      PacketChunk.latency]
  rw [h]
  simp

end Packetloss
